import Mathlib

/-!
# Verification of the `fluent-string` library

The library (`src/lib.rs`) defines a trait `FluentString` with fluent
versions of the `std::string::String` mutation methods (`f_clear`,
`f_insert`, `f_insert_str`, `f_push`, `f_push_str`, `f_replace_range`,
`f_reserve`, `f_reserve_exact`, `f_retain`, `f_shrink_to`,
`f_shrink_to_fit`, `f_truncate`, `f_try_reserve`, `f_try_reserve_exact`)
plus three conditional combinators (`f_push_if`, `f_push_str_if`,
`f_truncate_if`).  Both trait implementations (`String` and
`&mut String`) delegate each method to the identically named `String`
method, so a single model covers both.

We model a Rust `String` as a structure `RString` holding its character
content (a `List Char` of Unicode scalar values) together with a byte
capacity.  Rust `String` indices are *byte* offsets into the UTF-8
representation; an operation taking an index panics when the index is not
a character boundary.  We model byte indexing with `splitAtByte`, which
splits a character list at a byte offset and fails (`none`) when the
offset does not land on a character boundary, and model panicking
operations as `Option`-valued.  `encodeChar`/`encodeStr` give the actual
UTF-8 byte representation, used to state that the byte-level effect of
each operation yields valid UTF-8 text.
-/

set_option autoImplicit false

/-- Number of bytes of the UTF-8 encoding of a character
(Rust `char::len_utf8`). -/
def utf8Len (c : Char) : Nat :=
  if c.toNat < 0x80 then 1
  else if c.toNat < 0x800 then 2
  else if c.toNat < 0x10000 then 3
  else 4

/-- The UTF-8 encoding of a character, as a list of byte values. -/
def encodeChar (c : Char) : List Nat :=
  let n := c.toNat
  if n < 0x80 then [n]
  else if n < 0x800 then [0xC0 + n / 0x40, 0x80 + n % 0x40]
  else if n < 0x10000 then
    [0xE0 + n / 0x1000, 0x80 + (n / 0x40) % 0x40, 0x80 + n % 0x40]
  else
    [0xF0 + n / 0x40000, 0x80 + (n / 0x1000) % 0x40,
     0x80 + (n / 0x40) % 0x40, 0x80 + n % 0x40]

/-- Byte length of a character list (Rust `String::len`). -/
def byteLen : List Char → Nat
  | [] => 0
  | c :: cs => utf8Len c + byteLen cs

/-- The UTF-8 byte representation of a character list
(the actual content of a Rust `String`'s heap buffer). -/
def encodeStr : List Char → List Nat
  | [] => []
  | c :: cs => encodeChar c ++ encodeStr cs

/-- A byte string is valid UTF-8 text when it is the encoding of some
sequence of Unicode scalar values. -/
def ValidUtf8 (bs : List Nat) : Prop :=
  ∃ cs : List Char, encodeStr cs = bs

/-- Split a character list at a byte offset.  Returns `some (a, b)` with
`l = a ++ b` and `byteLen a = n` when byte offset `n` is a character
boundary of `l` (Rust `str::is_char_boundary`), and `none` otherwise. -/
def splitAtByte : List Char → Nat → Option (List Char × List Char)
  | l, 0 => some ([], l)
  | [], _ + 1 => none
  | c :: cs, n + 1 =>
    if utf8Len c ≤ n + 1 then
      match splitAtByte cs (n + 1 - utf8Len c) with
      | some (a, b) => some (c :: a, b)
      | none => none
    else none

/-- Model of a Rust `String`: character content plus byte capacity. -/
structure RString where
  data : List Char
  cap : Nat
deriving DecidableEq, Repr

/-- A string literal as an `RString` with capacity exactly its byte
length (as produced by `str::to_owned` / `String::from`). -/
def mkString (s : String) : RString :=
  ⟨s.toList, byteLen s.toList⟩

/-- `f_clear`: delegates to `String::clear`, which empties the content
and keeps the capacity, then returns `self`. -/
def f_clear (s : RString) : RString :=
  ⟨[], s.cap⟩

/-- `f_push`: delegates to `String::push` (append one character),
then returns `self`. -/
def f_push (s : RString) (ch : Char) : RString :=
  ⟨s.data ++ [ch], max s.cap (byteLen (s.data ++ [ch]))⟩

/-- `f_push_str`: delegates to `String::push_str` (append a string
slice), then returns `self`. -/
def f_push_str (s : RString) (t : List Char) : RString :=
  ⟨s.data ++ t, max s.cap (byteLen (s.data ++ t))⟩

/-- `f_insert`: delegates to `String::insert`, which panics (`none`)
unless byte index `idx` is a character boundary. -/
def f_insert (s : RString) (idx : Nat) (ch : Char) : Option RString :=
  match splitAtByte s.data idx with
  | some (a, b) => some ⟨a ++ ch :: b, max s.cap (byteLen (a ++ ch :: b))⟩
  | none => none

/-- `f_insert_str`: delegates to `String::insert_str`, which panics
(`none`) unless byte index `idx` is a character boundary. -/
def f_insert_str (s : RString) (idx : Nat) (t : List Char) : Option RString :=
  match splitAtByte s.data idx with
  | some (a, b) => some ⟨a ++ t ++ b, max s.cap (byteLen (a ++ t ++ b))⟩
  | none => none

/-- `f_truncate`: delegates to `String::truncate`: a no-op when
`new_len ≥ len`, otherwise keeps the first `n` bytes, panicking (`none`)
when `n` is not a character boundary. -/
def f_truncate (s : RString) (n : Nat) : Option RString :=
  if byteLen s.data ≤ n then some s
  else
    match splitAtByte s.data n with
    | some (a, _) => some ⟨a, s.cap⟩
    | none => none

/-- `f_replace_range` (with a `start..end` range): delegates to
`String::replace_range`, which panics (`none`) unless both endpoints are
character boundaries and `a ≤ b`; otherwise splices `rep` over bytes
`[a, b)`. -/
def f_replace_range (s : RString) (a b : Nat) (rep : List Char) : Option RString :=
  if a ≤ b then
    match splitAtByte s.data a, splitAtByte s.data b with
    | some (pre, _), some (_, suf) =>
      some ⟨pre ++ rep ++ suf, max s.cap (byteLen (pre ++ rep ++ suf))⟩
    | _, _ => none
  else none

/-- `f_reserve`: delegates to `String::reserve`, which guarantees
capacity for at least `additional` more bytes (possibly over-allocating;
we model the minimal compliant capacity), then returns `self`. -/
def f_reserve (s : RString) (additional : Nat) : RString :=
  ⟨s.data, max s.cap (byteLen s.data + additional)⟩

/-- `f_reserve_exact`: delegates to `String::reserve_exact` (no
deliberate over-allocation), then returns `self`. -/
def f_reserve_exact (s : RString) (additional : Nat) : RString :=
  ⟨s.data, max s.cap (byteLen s.data + additional)⟩

/-- `f_shrink_to`: delegates to `String::shrink_to`: lowers the
capacity toward `minCap`, never below the current length, no-op when
`minCap ≥ cap`. -/
def f_shrink_to (s : RString) (minCap : Nat) : RString :=
  ⟨s.data, max (byteLen s.data) (min s.cap minCap)⟩

/-- `f_shrink_to_fit`: delegates to `String::shrink_to_fit`. -/
def f_shrink_to_fit (s : RString) : RString :=
  ⟨s.data, byteLen s.data⟩

/-- The largest capacity a Rust `String` can have (`isize::MAX` bytes
on a 64-bit target); a reservation beyond it fails with
`TryReserveErrorKind::CapacityOverflow`. -/
def rustMaxCap : Nat := 2 ^ 63 - 1

/-- Model of `std::collections::TryReserveError`: the structured value
returned when a fallible reservation cannot be satisfied.  With
unbounded memory the only unsatisfiable requests are capacity
overflows. -/
inductive TryReserveErrKind where
  | capacityOverflow
deriving DecidableEq, Repr

/-- `f_try_reserve`: delegates to `String::try_reserve`, mapping the
unit success to `self` (`self.try_reserve(additional).map(|()| self)`).
A request the address space can satisfy succeeds; an unsatisfiable one
yields the structured error value instead of panicking. -/
def f_try_reserve (s : RString) (additional : Nat) :
    Except TryReserveErrKind RString :=
  if byteLen s.data + additional ≤ rustMaxCap then
    .ok ⟨s.data, max s.cap (byteLen s.data + additional)⟩
  else .error .capacityOverflow

/-- `f_try_reserve_exact`: delegates to `String::try_reserve_exact`. -/
def f_try_reserve_exact (s : RString) (additional : Nat) :
    Except TryReserveErrKind RString :=
  if byteLen s.data + additional ≤ rustMaxCap then
    .ok ⟨s.data, max s.cap (byteLen s.data + additional)⟩
  else .error .capacityOverflow

/-- Core of `String::retain` with an `FnMut` predicate, modelled as a
state-threading function: the predicate is applied to each character in
sequence order, once, threading its internal state `σ`; characters whose
verdict is `false` are dropped. -/
def retainList {σ : Type} (f : σ → Char → σ × Bool) : σ → List Char → List Char
  | _, [] => []
  | st, c :: cs =>
    if (f st c).2 then c :: retainList f (f st c).1 cs
    else retainList f (f st c).1 cs

/-- The sequence of verdicts `String::retain`'s predicate produces: one
per character, in sequence order, threading the predicate's state. -/
def retainVerdicts {σ : Type} (f : σ → Char → σ × Bool) : σ → List Char → List Bool
  | _, [] => []
  | st, c :: cs => (f st c).2 :: retainVerdicts f (f st c).1 cs

/-- `f_retain`: delegates to `String::retain(f)` (which keeps
capacity), then returns `self`. -/
def f_retain {σ : Type} (s : RString) (f : σ → Char → σ × Bool) (st : σ) : RString :=
  ⟨retainList f st s.data, s.cap⟩

/-- `f_push_if`: `if f(&self, ch) { self.f_push(ch) } else { self }`. -/
def f_push_if (s : RString) (ch : Char) (f : RString → Char → Bool) : RString :=
  if f s ch then f_push s ch else s

/-- `f_push_str_if`:
`if f(&self, string) { self.f_push_str(string) } else { self }`. -/
def f_push_str_if (s : RString) (t : List Char) (f : RString → List Char → Bool) : RString :=
  if f s t then f_push_str s t else s

/-- `f_truncate_if`: `match f(&self) { Some(l) => self.f_truncate(l),
None => self }`. -/
def f_truncate_if (s : RString) (f : RString → Option Nat) : Option RString :=
  match f s with
  | some l => f_truncate s l
  | none => some s

/-- Reading the character at byte position `idx`
(Rust `s[idx..].chars().next()`). -/
def charAtByte (s : RString) (idx : Nat) : Option Char :=
  match splitAtByte s.data idx with
  | some (_, b) => b.head?
  | none => none

/-- The predicate of the `push_if` tests: `|s, _c| !s.is_empty()`. -/
def notEmptyPred (s : RString) (_ : Char) : Bool :=
  !s.data.isEmpty

/-- `truncate_if` test predicate: cut 4 bytes when the content ends
with `" you"` (`|s| if s.ends_with(" you") {Some(s.len() - 4)} else {None}`). -/
def endsYouPred (s : RString) : Option Nat :=
  if " you".toList.isSuffixOf s.data then some (byteLen s.data - 4) else none

/-- `truncate_if` test predicate: cut 4 bytes when the content ends
with `" ble"`. -/
def endsBlePred (s : RString) : Option Nat :=
  if " ble".toList.isSuffixOf s.data then some (byteLen s.data - 4) else none

/-- Worked scenario of the crate documentation: `"my string"` →
`f_push_str(" is a bit longer now")` → `f_insert_str(12, ", maybe,")` →
`f_truncate(33)` yields `"my string is, maybe, a bit longer"` (C1). -/
theorem c1_worked_scenario :
    (f_push_str (mkString "my string") " is a bit longer now".toList).data
      = "my string is a bit longer now".toList
    ∧ (f_insert_str (f_push_str (mkString "my string") " is a bit longer now".toList)
        12 ", maybe,".toList).map RString.data
      = some "my string is, maybe, a bit longer now".toList
    ∧ ((f_insert_str (f_push_str (mkString "my string") " is a bit longer now".toList)
        12 ", maybe,".toList).bind (fun r => f_truncate r 33)).map RString.data
      = some "my string is, maybe, a bit longer".toList := by
  refine ⟨rfl, rfl, rfl⟩

/-- C2: `f_push_if` applies the predicate to the buffer's state before
any mutation; when the predicate returns `true` the character is
appended (`f_push`), when it returns `false` the buffer is returned
unchanged.  On an empty buffer with predicate "not empty" the buffer
stays empty; on `"hey"` it becomes `"hey,"`. -/
theorem c2_push_if_spec :
    (∀ (s : RString) (ch : Char) (f : RString → Char → Bool),
      f s ch = true → f_push_if s ch f = f_push s ch)
    ∧ (∀ (s : RString) (ch : Char) (f : RString → Char → Bool),
      f s ch = false → f_push_if s ch f = s)
    ∧ f_push_if (mkString "") ',' notEmptyPred = mkString ""
    ∧ (f_push_if (mkString "hey") ',' notEmptyPred).data = "hey,".toList := by
  refine ⟨fun s ch f h => ?_, fun s ch f h => ?_, rfl, rfl⟩
  · simp [f_push_if, h]
  · simp [f_push_if, h]

/-- C2 witness: the general clauses of `c2_push_if_spec` instantiated at
`"hey"` / the empty buffer with the "not empty" predicate. -/
theorem c2_push_if_spec_witness :
    f_push_if (mkString "hey") ',' notEmptyPred = f_push (mkString "hey") ','
    ∧ f_push_if (mkString "") ',' notEmptyPred = mkString "" :=
  ⟨c2_push_if_spec.1 (mkString "hey") ',' notEmptyPred (by decide),
   c2_push_if_spec.2.1 (mkString "") ',' notEmptyPred (by decide)⟩

/-- C3: `f_truncate_if` truncates to the returned length when the
predicate yields one and leaves the buffer unchanged when it yields
nothing; on `"hey you"` the " you"-cutting predicate gives `"hey"`,
the " ble" predicate leaves `"hey you"`. -/
theorem c3_truncate_if_spec :
    (∀ (s : RString) (f : RString → Option Nat) (l : Nat),
      f s = some l → f_truncate_if s f = f_truncate s l)
    ∧ (∀ (s : RString) (f : RString → Option Nat),
      f s = none → f_truncate_if s f = some s)
    ∧ (f_truncate_if (mkString "hey you") endsYouPred).map RString.data
        = some "hey".toList
    ∧ f_truncate_if (mkString "hey you") endsBlePred = some (mkString "hey you") := by
  refine ⟨fun s f l h => ?_, fun s f h => ?_, rfl, rfl⟩
  · simp [f_truncate_if, h]
  · simp [f_truncate_if, h]

/-- C3 witness: the general clauses of `c3_truncate_if_spec`
instantiated at `"hey you"` with the two test predicates. -/
theorem c3_truncate_if_spec_witness :
    f_truncate_if (mkString "hey you") endsYouPred
      = f_truncate (mkString "hey you") 3
    ∧ f_truncate_if (mkString "hey you") endsBlePred = some (mkString "hey you") :=
  ⟨c3_truncate_if_spec.1 (mkString "hey you") endsYouPred 3 (by decide),
   c3_truncate_if_spec.2.1 (mkString "hey you") endsBlePred (by decide)⟩

theorem utf8Len_pos (c : Char) : 0 < utf8Len c := by
  unfold utf8Len
  split_ifs <;> omega

theorem splitAtByte_some {l : List Char} : ∀ {n : Nat} {a b : List Char},
    splitAtByte l n = some (a, b) → l = a ++ b ∧ byteLen a = n := by
  induction l with
  | nil =>
    intro n a b h
    cases n with
    | zero =>
      simp only [splitAtByte, Option.some.injEq, Prod.mk.injEq] at h
      obtain ⟨rfl, rfl⟩ := h
      exact ⟨rfl, rfl⟩
    | succ n => simp [splitAtByte] at h
  | cons c cs ih =>
    intro n a b h
    cases n with
    | zero =>
      simp only [splitAtByte, Option.some.injEq, Prod.mk.injEq] at h
      obtain ⟨rfl, rfl⟩ := h
      exact ⟨rfl, rfl⟩
    | succ n =>
      rw [splitAtByte] at h
      split at h
      · rename_i hle
        cases hrec : splitAtByte cs (n + 1 - utf8Len c) with
        | none => rw [hrec] at h; simp at h
        | some p =>
          obtain ⟨a1, b1⟩ := p
          rw [hrec] at h
          simp only [Option.some.injEq, Prod.mk.injEq] at h
          obtain ⟨rfl, rfl⟩ := h
          obtain ⟨rfl, hlen⟩ := ih hrec
          constructor
          · rfl
          · show utf8Len c + byteLen a1 = n + 1
            omega
      · simp at h

theorem splitAtByte_append : ∀ (a l : List Char),
    splitAtByte (a ++ l) (byteLen a) = some (a, l) := by
  intro a
  induction a with
  | nil =>
    intro l
    show splitAtByte ([] ++ l) (byteLen []) = some ([], l)
    rw [List.nil_append]
    show splitAtByte l 0 = some ([], l)
    cases l <;> rfl
  | cons c cs ih =>
    intro l
    have hpos := utf8Len_pos c
    have hcase : utf8Len c + byteLen cs = (utf8Len c + byteLen cs - 1) + 1 := by omega
    show splitAtByte (c :: (cs ++ l)) (utf8Len c + byteLen cs) = some (c :: cs, l)
    rw [hcase, splitAtByte, if_pos (by omega)]
    have harg : utf8Len c + byteLen cs - 1 + 1 - utf8Len c = byteLen cs := by omega
    rw [harg, ih l]

theorem splitAtByte_self (l : List Char) :
    splitAtByte l (byteLen l) = some (l, []) := by
  have h := splitAtByte_append l []
  rwa [List.append_nil] at h

/-- C7: `f_push_str(s)` is equivalent to `f_insert_str(len, s)`: for
every buffer `s` and fragment `t`, inserting `t` at byte offset
`byteLen s.data` succeeds and yields exactly `f_push_str s t`. -/
theorem c7_push_str_eq_insert_str_at_len (s : RString) (t : List Char) :
    f_insert_str s (byteLen s.data) t = some (f_push_str s t) := by
  rw [f_insert_str, splitAtByte_self]
  simp [f_push_str]

/-- C4: after a successful `f_insert s idx ch`, reading the character at
byte position `idx` yields `ch`, and the length (in characters) has
grown by exactly one. -/
theorem c4_insert_then_read (s : RString) (idx : Nat) (ch : Char) (r : RString)
    (h : f_insert s idx ch = some r) :
    charAtByte r idx = some ch ∧ r.data.length = s.data.length + 1 := by
  rw [f_insert] at h
  cases hs : splitAtByte s.data idx with
  | none => rw [hs] at h; simp at h
  | some p =>
    obtain ⟨a, b⟩ := p
    rw [hs] at h
    simp only [Option.some.injEq] at h
    obtain ⟨hd, hlen⟩ := splitAtByte_some hs
    subst h
    constructor
    · have hsplit : splitAtByte (a ++ ch :: b) idx = some (a, ch :: b) := by
        rw [← hlen]
        exact splitAtByte_append a (ch :: b)
      simp [charAtByte, hsplit]
    · rw [hd]
      simp only [List.length_append, List.length_cons]
      omega

/-- C4 witness: inserting `'c'` at byte 1 of `"ab"` gives a buffer whose
character at byte 1 is `'c'` and whose character count grew by one. -/
theorem c4_insert_then_read_witness :
    charAtByte ⟨"acb".toList, 3⟩ 1 = some 'c'
    ∧ ("acb".toList).length = ("ab".toList).length + 1 :=
  c4_insert_then_read (mkString "ab") 1 'c' ⟨"acb".toList, 3⟩ (by decide)

/-- C6: `f_replace_range` panics (`none`) exactly when the range is
inverted or an endpoint is out of range or off a character boundary;
`f_truncate` panics when `n < len` is off a boundary, and is a no-op
(returning the buffer unchanged) whenever `n ≥ len`. -/
theorem c6_fail_loudly :
    (∀ (s : RString) (a b : Nat) (rep : List Char),
      f_replace_range s a b rep = none
        ↔ (b < a ∨ splitAtByte s.data a = none ∨ splitAtByte s.data b = none))
    ∧ (∀ (s : RString) (n : Nat),
      n < byteLen s.data → splitAtByte s.data n = none → f_truncate s n = none)
    ∧ (∀ (s : RString) (n : Nat), byteLen s.data ≤ n → f_truncate s n = some s) := by
  refine ⟨fun s a b rep => ?_, fun s n h1 h2 => ?_, fun s n h => ?_⟩
  · rw [f_replace_range]
    by_cases hab : a ≤ b
    · rw [if_pos hab]
      cases ha : splitAtByte s.data a with
      | none => simp [ha]
      | some p =>
        obtain ⟨pre, post⟩ := p
        cases hb : splitAtByte s.data b with
        | none => simp [hb]
        | some q => obtain ⟨q1, q2⟩ := q; simp [ha, hb]; omega
    · rw [if_neg hab]
      simp
      omega
  · rw [f_truncate, if_neg (by omega), h2]
  · rw [f_truncate, if_pos h]

/-- C6 witness: on the two-byte buffer `"é"`, replacing or truncating at
byte 1 (mid-character) panics, while truncating at 2 (= its length) is a
no-op. -/
theorem c6_fail_loudly_witness :
    f_replace_range (mkString "é") 1 2 [] = none
    ∧ f_truncate (mkString "é") 1 = none
    ∧ f_truncate (mkString "é") 2 = some (mkString "é") :=
  ⟨(c6_fail_loudly.1 (mkString "é") 1 2 []).mpr (Or.inr (Or.inl (by decide))),
   c6_fail_loudly.2.1 (mkString "é") 1 (by decide) (by decide),
   c6_fail_loudly.2.2 (mkString "é") 2 (by decide)⟩

/-- C8: a satisfiable `f_try_reserve` succeeds, returning the buffer
with content unchanged and capacity at least length + requested amount;
an unsatisfiable one returns the structured error value instead of
panicking. -/
theorem c8_try_reserve (s : RString) (n : Nat) :
    (byteLen s.data + n ≤ rustMaxCap →
      ∃ r : RString, f_try_reserve s n = .ok r ∧ r.data = s.data
        ∧ byteLen r.data + n ≤ r.cap)
    ∧ (rustMaxCap < byteLen s.data + n →
      f_try_reserve s n = .error .capacityOverflow) := by
  constructor
  · intro h
    refine ⟨⟨s.data, max s.cap (byteLen s.data + n)⟩, ?_, rfl, ?_⟩
    · rw [f_try_reserve, if_pos h]
    · exact Nat.le_max_right _ _
  · intro h
    rw [f_try_reserve, if_neg (by omega)]

/-- C8 witness: reserving 5 more bytes on `"hi"` succeeds with content
unchanged; reserving `2^63` bytes overflows the capacity and yields the
error value. -/
theorem c8_try_reserve_witness :
    (∃ r : RString, f_try_reserve (mkString "hi") 5 = .ok r
      ∧ r.data = (mkString "hi").data
      ∧ byteLen r.data + 5 ≤ r.cap)
    ∧ f_try_reserve (mkString "") (2 ^ 63) = .error .capacityOverflow :=
  ⟨(c8_try_reserve (mkString "hi") 5).1 (by decide),
   (c8_try_reserve (mkString "") (2 ^ 63)).2 (by decide)⟩

/-- C10: `f_clear` keeps the capacity unchanged and empties the content
(length 0). -/
theorem c10_clear_keeps_cap (s : RString) :
    (f_clear s).cap = s.cap ∧ (f_clear s).data = [] :=
  ⟨rfl, rfl⟩

theorem retainVerdicts_length {σ : Type} (f : σ → Char → σ × Bool) :
    ∀ (st : σ) (l : List Char), (retainVerdicts f st l).length = l.length := by
  intro st l
  induction l generalizing st with
  | nil => rfl
  | cons c cs ih => simp [retainVerdicts, ih]

theorem retainList_eq_filter_zip {σ : Type} (f : σ → Char → σ × Bool) :
    ∀ (st : σ) (l : List Char),
      retainList f st l
        = ((l.zip (retainVerdicts f st l)).filter (fun p => p.2)).map Prod.fst := by
  intro st l
  induction l generalizing st with
  | nil => rfl
  | cons c cs ih =>
    rw [retainList, retainVerdicts]
    cases hv : (f st c).2 <;> simp [List.zip_cons_cons, List.filter_cons, hv, ih]

theorem retainList_length_count {σ : Type} (f : σ → Char → σ × Bool) :
    ∀ (st : σ) (l : List Char),
      (retainList f st l).length = (retainVerdicts f st l).count true := by
  intro st l
  induction l generalizing st with
  | nil => rfl
  | cons c cs ih =>
    rw [retainList, retainVerdicts]
    cases hv : (f st c).2 <;> simp [List.count_cons, hv, ih]

theorem retainList_sublist {σ : Type} (f : σ → Char → σ × Bool) :
    ∀ (st : σ) (l : List Char), (retainList f st l).Sublist l := by
  intro st l
  induction l generalizing st with
  | nil => exact List.Sublist.refl []
  | cons c cs ih =>
    rw [retainList]
    by_cases hv : (f st c).2 = true
    · rw [if_pos hv]
      exact (ih (f st c).1).cons₂ c
    · rw [if_neg hv]
      exact (ih (f st c).1).cons c

/-- C5: `f_retain` invokes the (stateful) predicate once per character
in sequence order (one verdict per character); it keeps exactly the
characters whose verdict was `true`, in their original relative order
(the result is a sublist of the input), and the resulting character
count equals the number of `true` verdicts. -/
theorem c5_retain_filter {σ : Type} (f : σ → Char → σ × Bool) (st : σ) (s : RString) :
    (retainVerdicts f st s.data).length = s.data.length
    ∧ (f_retain s f st).data
      = ((s.data.zip (retainVerdicts f st s.data)).filter (fun p => p.2)).map Prod.fst
    ∧ (f_retain s f st).data.length = (retainVerdicts f st s.data).count true
    ∧ (f_retain s f st).data.Sublist s.data :=
  ⟨retainVerdicts_length f st s.data,
   retainList_eq_filter_zip f st s.data,
   retainList_length_count f st s.data,
   retainList_sublist f st s.data⟩

theorem encodeChar_length (c : Char) : (encodeChar c).length = utf8Len c := by
  simp only [encodeChar, utf8Len]
  split_ifs <;> rfl

theorem encodeStr_append : ∀ (a b : List Char),
    encodeStr (a ++ b) = encodeStr a ++ encodeStr b := by
  intro a b
  induction a with
  | nil => rfl
  | cons c cs ih => simp [encodeStr, ih]

theorem encodeStr_length (l : List Char) : (encodeStr l).length = byteLen l := by
  induction l with
  | nil => rfl
  | cons c cs ih => simp [encodeStr, byteLen, encodeChar_length, ih]

theorem encodeStr_take_of_split {l a b : List Char} {n : Nat}
    (h : splitAtByte l n = some (a, b)) :
    (encodeStr l).take n = encodeStr a ∧ (encodeStr l).drop n = encodeStr b := by
  obtain ⟨hd, hlen⟩ := splitAtByte_some h
  subst hd
  constructor
  · rw [encodeStr_append]
    exact List.take_left' (by rw [encodeStr_length]; exact hlen)
  · rw [encodeStr_append]
    exact List.drop_left' (by rw [encodeStr_length]; exact hlen)

/-- C9: no operation leaves the buffer in a non-text state.  For each
boundary-indexed operation, the byte-level effect it performs on the
UTF-8 buffer (splicing at the checked byte offsets) yields exactly the
encoding of the resulting character sequence, hence valid UTF-8 text;
and the content of every buffer the model can produce (covering both the
`String` and `&mut String` implementations, which delegate identically)
encodes to valid text. -/
theorem c9_valid_utf8 :
    (∀ (s : RString) (idx : Nat) (ch : Char) (r : RString),
      f_insert s idx ch = some r →
      encodeStr r.data
        = (encodeStr s.data).take idx ++ encodeChar ch ++ (encodeStr s.data).drop idx
      ∧ ValidUtf8 ((encodeStr s.data).take idx ++ encodeChar ch
          ++ (encodeStr s.data).drop idx))
    ∧ (∀ (s : RString) (idx : Nat) (t : List Char) (r : RString),
      f_insert_str s idx t = some r →
      encodeStr r.data
        = (encodeStr s.data).take idx ++ encodeStr t ++ (encodeStr s.data).drop idx
      ∧ ValidUtf8 ((encodeStr s.data).take idx ++ encodeStr t
          ++ (encodeStr s.data).drop idx))
    ∧ (∀ (s : RString) (n : Nat) (r : RString),
      f_truncate s n = some r →
      encodeStr r.data = (encodeStr s.data).take n
      ∧ ValidUtf8 ((encodeStr s.data).take n))
    ∧ (∀ (s : RString) (a b : Nat) (rep : List Char) (r : RString),
      f_replace_range s a b rep = some r →
      encodeStr r.data
        = (encodeStr s.data).take a ++ encodeStr rep ++ (encodeStr s.data).drop b
      ∧ ValidUtf8 ((encodeStr s.data).take a ++ encodeStr rep
          ++ (encodeStr s.data).drop b))
    ∧ (∀ r : RString, ValidUtf8 (encodeStr r.data)) := by
  refine ⟨?_, ?_, ?_, ?_, fun r => ⟨r.data, rfl⟩⟩
  · intro s idx ch r h
    rw [f_insert] at h
    cases hs : splitAtByte s.data idx with
    | none => rw [hs] at h; simp at h
    | some p =>
      obtain ⟨a, b⟩ := p
      rw [hs] at h
      simp only [Option.some.injEq] at h
      subst h
      obtain ⟨ht, hdr⟩ := encodeStr_take_of_split hs
      have heq : encodeStr (a ++ ch :: b)
          = (encodeStr s.data).take idx ++ encodeChar ch ++ (encodeStr s.data).drop idx := by
        rw [ht, hdr, encodeStr_append]
        simp [encodeStr, List.append_assoc]
      exact ⟨heq, a ++ ch :: b, heq⟩
  · intro s idx t r h
    rw [f_insert_str] at h
    cases hs : splitAtByte s.data idx with
    | none => rw [hs] at h; simp at h
    | some p =>
      obtain ⟨a, b⟩ := p
      rw [hs] at h
      simp only [Option.some.injEq] at h
      subst h
      obtain ⟨ht, hdr⟩ := encodeStr_take_of_split hs
      have heq : encodeStr (a ++ t ++ b)
          = (encodeStr s.data).take idx ++ encodeStr t ++ (encodeStr s.data).drop idx := by
        rw [ht, hdr, encodeStr_append, encodeStr_append]
      exact ⟨heq, a ++ t ++ b, heq⟩
  · intro s n r h
    rw [f_truncate] at h
    split at h
    · rename_i hle
      simp only [Option.some.injEq] at h
      subst h
      have hlen : (encodeStr s.data).length ≤ n := by
        rw [encodeStr_length]; exact hle
      rw [List.take_of_length_le hlen]
      exact ⟨rfl, s.data, rfl⟩
    · rename_i hgt
      cases hs : splitAtByte s.data n with
      | none => rw [hs] at h; simp at h
      | some p =>
        obtain ⟨a, b⟩ := p
        rw [hs] at h
        simp only [Option.some.injEq] at h
        subst h
        obtain ⟨ht, _⟩ := encodeStr_take_of_split hs
        exact ⟨ht.symm, a, ht.symm⟩
  · intro s a b rep r h
    rw [f_replace_range] at h
    split at h
    · rename_i hab
      split at h
      · rename_i pre p1 s1 suf heq1 heq2
        simp only [Option.some.injEq] at h
        subst h
        obtain ⟨ht, _⟩ := encodeStr_take_of_split heq1
        obtain ⟨_, hdr⟩ := encodeStr_take_of_split heq2
        have heq : encodeStr (pre ++ rep ++ suf)
            = (encodeStr s.data).take a ++ encodeStr rep ++ (encodeStr s.data).drop b := by
          rw [ht, hdr, encodeStr_append, encodeStr_append]
        exact ⟨heq, pre ++ rep ++ suf, heq⟩
      · simp at h
    · simp at h

/-- C9 witness: the boundary-indexed clauses of `c9_valid_utf8`
instantiated at concrete buffers (one containing the two-byte character
`'é'`). -/
theorem c9_valid_utf8_witness :
    (encodeStr "abé".toList
      = (encodeStr "aé".toList).take 1 ++ encodeChar 'b' ++ (encodeStr "aé".toList).drop 1
     ∧ ValidUtf8 ((encodeStr "aé".toList).take 1 ++ encodeChar 'b'
         ++ (encodeStr "aé".toList).drop 1))
    ∧ (encodeStr "axyb".toList
      = (encodeStr "ab".toList).take 1 ++ encodeStr "xy".toList ++ (encodeStr "ab".toList).drop 1
     ∧ ValidUtf8 ((encodeStr "ab".toList).take 1 ++ encodeStr "xy".toList
         ++ (encodeStr "ab".toList).drop 1))
    ∧ (encodeStr "ab".toList = (encodeStr "abc".toList).take 2
     ∧ ValidUtf8 ((encodeStr "abc".toList).take 2))
    ∧ (encodeStr "axyc".toList
      = (encodeStr "abc".toList).take 1 ++ encodeStr "xy".toList ++ (encodeStr "abc".toList).drop 2
     ∧ ValidUtf8 ((encodeStr "abc".toList).take 1 ++ encodeStr "xy".toList
         ++ (encodeStr "abc".toList).drop 2)) :=
  ⟨c9_valid_utf8.1 (mkString "aé") 1 'b' ⟨"abé".toList, 4⟩ (by decide),
   c9_valid_utf8.2.1 (mkString "ab") 1 "xy".toList ⟨"axyb".toList, 4⟩ (by decide),
   c9_valid_utf8.2.2.1 (mkString "abc") 2 ⟨"ab".toList, 3⟩ (by decide),
   c9_valid_utf8.2.2.2.1 (mkString "abc") 1 2 "xy".toList ⟨"axyc".toList, 4⟩ (by decide)⟩
